import Mathlib

/-!
Verification development for the BibTeX keyword-extraction pipeline
(`scripts/extract_keywords.py`).

Strings are modelled as `List Char` (`Str`).  Python string primitives
(`str.lower`, `str.strip`, `str.splitlines`, `str.capitalize`, `str.title`,
substring containment, `str.replace`, the two regular expressions of the
script) are embedded as executable Lean functions on `Str`.  The embedding
is ASCII-faithful: `lower`/`upper`/`capitalize` act on the ASCII letters,
whitespace is the ASCII whitespace set, and `splitlines` recognises the
line terminators LF, CR and CRLF.  `unicodedata`-based accent stripping is
modelled as removal of the combining-mark block U+0300..U+036F from an
already NFKD-decomposed string; none of the properties proved below depend
on which characters this function removes.
-/

abbrev Str := List Char

def strChars (s : String) : Str := s.data

/-- ASCII whitespace, the characters matched by Python's default `strip`
and by the regex class used in the script. -/
def isPySpace (c : Char) : Bool :=
  c == ' ' || c == '\t' || c == '\n' || c == '\r' || c == '\x0b' || c == '\x0c'

def isAsciiUpper (c : Char) : Bool := 'A' ≤ c && c ≤ 'Z'

def isAsciiLower (c : Char) : Bool := 'a' ≤ c && c ≤ 'z'

def isAsciiAlpha (c : Char) : Bool := isAsciiUpper c || isAsciiLower c

def pyLowerChar (c : Char) : Char :=
  if isAsciiUpper c then Char.ofNat (c.toNat + 32) else c

def pyUpperChar (c : Char) : Char :=
  if isAsciiLower c then Char.ofNat (c.toNat - 32) else c

/-- Python `str.lower` (ASCII fragment). -/
def strLower (s : Str) : Str := s.map pyLowerChar

/-- Python `str.strip()` with no argument: remove leading and trailing
whitespace. -/
def pyStrip (s : Str) : Str :=
  ((s.dropWhile isPySpace).reverse.dropWhile isPySpace).reverse

/-- Python `str.capitalize`: first character upper-cased, rest lower-cased
(ASCII fragment). -/
def pyCapitalize : Str → Str
  | [] => []
  | c :: cs => pyUpperChar c :: cs.map pyLowerChar

/-- Python `str.title` (ASCII fragment): the first letter of every run of
letters is upper-cased, the following letters lower-cased. -/
def pyTitleGo : Bool → Str → Str
  | _, [] => []
  | prevAlpha, c :: cs =>
    (if isAsciiAlpha c then
        (if prevAlpha then pyLowerChar c else pyUpperChar c)
      else c) :: pyTitleGo (isAsciiAlpha c) cs

def pyTitle (s : Str) : Str := pyTitleGo false s

/-- `strip_accents`: `unicodedata.normalize('NFKD', ...)` followed by
removal of combining characters.  Modelled as removal of the combining
diacritical block U+0300..U+036F from an NFKD-decomposed string. -/
def strip_accents (s : Str) : Str :=
  s.filter (fun c => !(0x300 ≤ c.toNat && c.toNat ≤ 0x36F))

/-- Python substring containment `p in s`. -/
def isSubstrOf (p : Str) : Str → Bool
  | [] => p.isEmpty
  | c :: rest => p.isPrefixOf (c :: rest) || isSubstrOf p rest

/-- Python `s.replace(p, r)` for a nonempty pattern `p`: replace every
occurrence of `p`, left to right, non-overlapping.  (All call sites pass a
nonempty phrase; the empty-pattern branch is modelled as a no-op.)
Structured with an explicit fuel counter, initialised to the length of the
string, so that the definition reduces inside the kernel. -/
def replaceAllGo (p r : Str) : Nat → Str → Str
  | 0, s => s
  | _ + 1, [] => []
  | fuel + 1, c :: rest =>
    if p ≠ [] ∧ p.isPrefixOf (c :: rest) then
      r ++ replaceAllGo p r fuel (rest.drop (p.length - 1))
    else
      c :: replaceAllGo p r fuel rest

def replaceAll (p r s : Str) : Str := replaceAllGo p r s.length s

/-- Python `str.splitlines` restricted to the LF / CR / CRLF terminators:
a terminator ends the current line and a trailing terminator produces no
empty final line. -/
def splitlinesGo (acc : Str) : Str → List Str
  | [] => [acc.reverse]
  | '\r' :: '\n' :: rest =>
    acc.reverse :: (if rest.isEmpty then [] else splitlinesGo [] rest)
  | '\r' :: rest =>
    acc.reverse :: (if rest.isEmpty then [] else splitlinesGo [] rest)
  | '\n' :: rest =>
    acc.reverse :: (if rest.isEmpty then [] else splitlinesGo [] rest)
  | c :: rest => splitlinesGo (c :: acc) rest

def pySplitlines (s : Str) : List Str :=
  if s.isEmpty then [] else splitlinesGo [] s

/-- `'\n'.join(lines)`. -/
def joinNl (lines : List Str) : Str := List.intercalate ['\n'] lines

/-! ## The fixed tables of the script -/

def PHRASES : List Str :=
  [strChars "knowledge graph", strChars "knowledge graphs",
   strChars "clinical guideline", strChars "clinical guidelines",
   strChars "semantic web", strChars "semantic change",
   strChars "machine learning", strChars "data sharing",
   strChars "explainable ai", strChars "hybrid ai",
   strChars "ontology", strChars "ontologies",
   strChars "mapping", strChars "mappings",
   strChars "recommendation", strChars "recommendations",
   strChars "e-health", strChars "ehealth"]

def NORM : List (Str × Str) :=
  [(strChars "knowledge graphs", strChars "Knowledge Graphs"),
   (strChars "knowledge graph", strChars "Knowledge Graphs"),
   (strChars "clinical guidelines", strChars "Clinical Guidelines"),
   (strChars "clinical guideline", strChars "Clinical Guidelines"),
   (strChars "semantic web", strChars "Semantic Web"),
   (strChars "semantic change", strChars "Semantic Change"),
   (strChars "machine learning", strChars "Machine Learning"),
   (strChars "data sharing", strChars "Data Sharing"),
   (strChars "explainable ai", strChars "Explainable AI"),
   (strChars "hybrid ai", strChars "Hybrid AI"),
   (strChars "ontologies", strChars "Ontology"),
   (strChars "ontology", strChars "Ontology"),
   (strChars "mappings", strChars "Mapping"),
   (strChars "mapping", strChars "Mapping"),
   (strChars "recommendations", strChars "Recommendation"),
   (strChars "recommendation", strChars "Recommendation"),
   (strChars "e-health", strChars "eHealth"),
   (strChars "ehealth", strChars "eHealth")]

def STOPWORDS : List Str :=
  [strChars "the", strChars "and", strChars "for", strChars "with",
   strChars "into", strChars "over", strChars "from", strChars "using",
   strChars "via", strChars "a", strChars "an", strChars "of",
   strChars "on", strChars "in", strChars "to", strChars "by",
   strChars "be", strChars "based", strChars "towards", strChars "toward",
   strChars "under", strChars "between", strChars "their", strChars "within",
   strChars "case", strChars "study", strChars "short", strChars "paper",
   strChars "approach", strChars "method", strChars "system",
   strChars "framework", strChars "platform", strChars "model",
   strChars "models", strChars "multi", strChars "multi-level",
   strChars "level", strChars "evaluation", strChars "analysis",
   strChars "support", strChars "maintenance", strChars "adaptive",
   strChars "dynamic", strChars "evolving", strChars "internal",
   strChars "external", strChars "generalizing", strChars "general",
   strChars "generalized", strChars "combining", strChars "construction",
   strChars "exploitation", strChars "driven", strChars "formal",
   strChars "formalizing", strChars "formalisation", strChars "impact"]

/-- `NORM.get(key, dflt)`. -/
def normGet (key dflt : Str) : Str :=
  match NORM.lookup key with
  | some v => v
  | none => dflt

/-! ## Entry segmenter (`iter_bib_entries`) -/

/-- `line.count('{') - line.count('}')` as an integer. -/
def braceDelta (line : Str) : Int :=
  (line.count '\x7b' : Int) - (line.count '\x7d' : Int)

/-- `line.strip().startswith('@')`. -/
def startsRecord (line : Str) : Bool :=
  match pyStrip line with
  | c :: _ => c == '@'
  | [] => false

structure SegState where
  current : List Str
  depth : Int
  inside : Bool
  ents : List Str
  deriving DecidableEq, Repr

/-- One iteration of the loop body of `iter_bib_entries` on one line. -/
def segLine (st : SegState) (line : Str) : SegState :=
  let st1 :=
    if startsRecord line then
      { st with
        ents := st.ents ++ (if st.current ≠ [] then [joinNl st.current] else []),
        current := [],
        inside := true }
    else st
  if st1.inside then
    let cur := st1.current ++ [line]
    let d := st1.depth + braceDelta line
    if d ≤ 0 ∧ cur ≠ [] then
      { current := [], depth := d, inside := false, ents := st1.ents ++ [joinNl cur] }
    else
      { st1 with current := cur, depth := d }
  else st1

/-- The full generator `iter_bib_entries`, returning the list of yielded
entries (including the final flush of any trailing accumulated lines). -/
def iter_bib_entries (text : Str) : List Str :=
  let st := (pySplitlines text).foldl segLine ⟨[], 0, false, []⟩
  st.ents ++ (if st.current ≠ [] then [joinNl st.current] else [])

/-- The flush of a pending entry performed when a record-start line is
seen (and again at end-of-input). -/
def flushPending (st : SegState) : List Str :=
  if st.current ≠ [] then [joinNl st.current] else []

/-! ## Title extractor (`extract_title`)

The regex is `title\s*=\s*[{"](.+?)[}"]\s*,?` with `IGNORECASE | DOTALL`.
`titleCaptureFrom` attempts the pattern at the head of its argument and
returns the non-greedy capture group: after the case-insensitive literal
`title`, optional whitespace, `=`, optional whitespace and an opening
brace or double quote, the capture is the shortest nonempty run of
arbitrary characters followed by a closing brace or double quote.  The
trailing `\s*,?` of the pattern cannot fail and binds nothing.
`searchTitle` scans the entry left to right for the first position where
the pattern matches, as `re.search` does. -/

def isCloseDelim (c : Char) : Bool := c == '\x7d' || c == '"'

def titleCaptureFrom (e : Str) : Option Str :=
  if (e.take 5).map pyLowerChar = strChars "title" then
    match (e.drop 5).dropWhile isPySpace with
    | '=' :: r2 =>
      match r2.dropWhile isPySpace with
      | d :: r4 =>
        if d = '\x7b' ∨ d = '"' then
          match r4 with
          | [] => none
          | c0 :: r5 =>
            match r5.findIdx? isCloseDelim with
            | some j => some (c0 :: r5.take j)
            | none => none
        else none
      | [] => none
    | _ => none
  else none

def searchTitle : Str → Option Str
  | [] => none
  | c :: rest =>
    match titleCaptureFrom (c :: rest) with
    | some cap => some cap
    | none => searchTitle rest

/-- `m.group(1).replace('\n', ' ').strip()` followed by
`re.sub(r"\s+", " ", ...)`. -/
def collapseWsGo : Nat → Str → Str
  | 0, s => s
  | _ + 1, [] => []
  | fuel + 1, c :: rest =>
    if isPySpace c then ' ' :: collapseWsGo fuel (rest.dropWhile isPySpace)
    else c :: collapseWsGo fuel rest

def collapseWs (s : Str) : Str := collapseWsGo s.length s

def wsNormalize (s : Str) : Str :=
  collapseWs (pyStrip (s.map (fun c => if c = '\n' then ' ' else c)))

def extract_title (entry : Str) : Option Str :=
  (searchTitle entry).map wsNormalize

/-- The spec-side notion that an entry has a title field: the title
pattern matches at some position of the entry. -/
def hasTitleField (entry : Str) : Prop :=
  ∃ i, (titleCaptureFrom (entry.drop i)).isSome = true

instance (entry : Str) : Decidable (hasTitleField entry) := by
  unfold hasTitleField
  refine decidable_of_iff
    ((List.range (entry.length + 1)).any
      (fun i => (titleCaptureFrom (entry.drop i)).isSome) = true) ?_
  rw [List.any_eq_true]
  constructor
  · rintro ⟨i, _, hi⟩; exact ⟨i, hi⟩
  · rintro ⟨i, hi⟩
    by_cases h : i ≤ entry.length
    · exact ⟨i, List.mem_range.mpr (Nat.lt_succ_of_le h), hi⟩
    · refine ⟨entry.length, List.mem_range.mpr (Nat.lt_succ_self _), ?_⟩
      have hdrop : entry.drop i = [] :=
        List.drop_eq_nil_of_le (Nat.le_of_lt (Nat.lt_of_not_le h))
      have hdrop2 : entry.drop entry.length = [] := List.drop_eq_nil_of_le le_rfl
      rw [hdrop2, ← hdrop]; exact hi

/-! ## Keyword extractor -/

/-- `WORD_RE.findall`: the regex `[A-Za-z][A-Za-z\-]{2,}` — a letter
followed by a greedy maximal run of at least two letters or hyphens —
scanned left to right, non-overlapping.  Fuel-structured for kernel
reduction; the fuel is initialised to the string length. -/
def isWordTail (c : Char) : Bool := isAsciiAlpha c || c == '-'

def wordFindallGo : Nat → Str → List Str
  | 0, _ => []
  | _ + 1, [] => []
  | fuel + 1, c :: rest =>
    if isAsciiAlpha c then
      let run := rest.takeWhile isWordTail
      if 2 ≤ run.length then
        (c :: run) :: wordFindallGo fuel (rest.drop run.length)
      else
        wordFindallGo fuel rest
    else
      wordFindallGo fuel rest

def wordFindall (s : Str) : List Str := wordFindallGo s.length s

/-- Lexicographic comparison of strings by code point, Python's `<=` on
`str` (used to model `sorted`). -/
def strLe : Str → Str → Bool
  | [], _ => true
  | _ :: _, [] => false
  | a :: as, b :: bs =>
    if a.toNat < b.toNat then true
    else if b.toNat < a.toNat then false
    else strLe as bs

def insertSorted (x : Str) : List Str → List Str
  | [] => [x]
  | y :: ys => if strLe x y then x :: y :: ys else y :: insertSorted x ys

/-- `sorted(...)` on a collection of distinct strings: insertion sort by
`strLe`. -/
def sortStrs (l : List Str) : List Str := l.foldr insertSorted []

/-- `phrase_scan`: every phrase of `PHRASES` occurring in the lowered
title contributes its canonical form `NORM.get(p, p.title())`, in
phrase-list order. -/
def phraseNorm (p : Str) : Str := normGet p (pyTitle p)

def phrase_scan (lower_title : Str) : List Str :=
  (PHRASES.filter (fun p => isSubstrOf p lower_title)).map phraseNorm

/-- The loop body of `tokenize_remainder`: stopword filter, length
filter, normalization and suppression of tokens whose lower-cased
normalized form equals a collected phrase keyword's lower-cased form. -/
def tokenGuard (used_phrases : List Str) (w : Str) : Option Str :=
  if w ∈ STOPWORDS then none
  else if w.length < 4 then none
  else
    let norm := normGet w (pyCapitalize w)
    if strLower norm ∈ used_phrases.map strLower then none
    else some norm

/-- The erased string of `tokenize_remainder`: the lowered accent-stripped
title with every phrase replaced by a space. -/
def eraseAllPhrases (title : Str) : Str :=
  PHRASES.foldl (fun acc p => replaceAll p [' '] acc) (strip_accents (strLower title))

def tokenize_remainder (title : Str) (used_phrases : List Str) : List Str :=
  sortStrs (((wordFindall (eraseAllPhrases title)).filterMap (tokenGuard used_phrases)).dedup)

/-! ## Publications, aggregation, pipeline -/

structure Pub where
  title : Str
  keywords : List Str
  deriving DecidableEq, Repr

/-- The loop body of `build_publication_keywords` for one title
(`if not t: continue` skips both the absent and the empty title). -/
def pubOfTitle : Option Str → Option Pub
  | none => none
  | some [] => none
  | some (c :: cs) =>
    let t : Str := c :: cs
    let lt := strip_accents (strLower t)
    let phrases := phrase_scan lt
    let tokens := tokenize_remainder t phrases
    some ⟨t, phrases ++ tokens⟩

def build_publication_keywords (titles : List (Option Str)) : List Pub :=
  titles.filterMap pubOfTitle

/-- Python dict `freq.get(k, 0)` over an insertion-ordered association
list. -/
def dictGet : List (Str × Nat) → Str → Nat
  | [], _ => 0
  | (k', v) :: rest, k => if k' = k then v else dictGet rest k

/-- Python dict assignment `d[k] = v`: update in place, or append. -/
def dictSet : List (Str × Nat) → Str → Nat → List (Str × Nat)
  | [], k, v => [(k, v)]
  | (k', v') :: rest, k, v =>
    if k' = k then (k, v) :: rest else (k', v') :: dictSet rest k v

def bumpKeywords (d : List (Str × Nat)) (ks : List Str) : List (Str × Nat) :=
  ks.foldl (fun d k => dictSet d k (dictGet d k + 1)) d

def aggregate_keyword_freq (pubs : List Pub) : List (Str × Nat) :=
  pubs.foldl (fun d p => bumpKeywords d p.keywords) []

/-- The per-publication filter pass of `main`: when `min_freq > 1`, keep
only the keywords whose global frequency reaches the threshold. -/
def applyMinFreq (freq : List (Str × Nat)) (minFreq : Int) (pubs : List Pub) : List Pub :=
  if 1 < minFreq then
    pubs.map (fun p =>
      ⟨p.title, p.keywords.filter (fun k => decide (minFreq ≤ (dictGet freq k : Int)))⟩)
  else pubs

structure OutputDoc where
  publications : List Pub
  generatedFrom : Str
  totalPublications : Nat
  deriving DecidableEq, Repr

/-- The publications built by `main` before the threshold pass. -/
def pipelinePubs (text : Str) : List Pub :=
  build_publication_keywords ((iter_bib_entries text).map extract_title)

/-- The frequency map built by `main` (always from the unfiltered
publications). -/
def pipelineFreq (text : Str) : List (Str × Nat) :=
  aggregate_keyword_freq (pipelinePubs text)

/-- The pure core of `main`: from the input text, the configured
threshold and the input path, the emitted output document. -/
def runPipeline (text : Str) (minFreq : Int) (bibPath : Str) : OutputDoc :=
  ⟨applyMinFreq (pipelineFreq text) minFreq (pipelinePubs text), bibPath,
   (applyMinFreq (pipelineFreq text) minFreq (pipelinePubs text)).length⟩

def bibInput3 : Str :=
  strChars "@article\x7ba1, title=\x7bKnowledge Graphs and Ontology Mapping\x7d, year=2020\x7d"

def title3 : Str := strChars "Knowledge Graphs and Ontology Mapping"

/-- The keyword list the script computes for `title3`. -/
def keywords3 : List Str :=
  [strChars "Knowledge Graphs", strChars "Knowledge Graphs",
   strChars "Ontology", strChars "Mapping"]

/-! ## Order lemmas for the lexicographic comparison -/

theorem strLe_total (a b : Str) : strLe a b = true ∨ strLe b a = true := by
  induction a generalizing b with
  | nil => left; rfl
  | cons c cs ih =>
    cases b with
    | nil => right; rfl
    | cons d ds =>
      by_cases h1 : c.toNat < d.toNat
      · left; simp [strLe, h1]
      · by_cases h2 : d.toNat < c.toNat
        · right; simp [strLe, h2]
        · rcases ih ds with h | h
          · left; simp [strLe, h1, h2, h]
          · right; simp [strLe, h1, h2, h]

theorem strLe_trans : ∀ {a b c : Str}, strLe a b = true → strLe b c = true → strLe a c = true := by
  intro a
  induction a with
  | nil => intro b c _ _; rfl
  | cons x xs ih =>
    intro b c h1 h2
    cases b with
    | nil => exact absurd h1 (by simp [strLe])
    | cons y ys =>
      cases c with
      | nil => exact absurd h2 (by simp [strLe])
      | cons z zs =>
        simp only [strLe] at h1 h2 ⊢
        rcases Nat.lt_trichotomy x.toNat y.toNat with hxy | hxy | hxy
        · rcases Nat.lt_trichotomy y.toNat z.toNat with hyz | hyz | hyz
          · rw [if_pos (by omega)]
          · rw [if_pos (by omega)]
          · rw [if_neg (by omega), if_pos hyz] at h2; exact absurd h2 (by simp)
        · rw [if_neg (by omega), if_neg (by omega)] at h1
          rcases Nat.lt_trichotomy y.toNat z.toNat with hyz | hyz | hyz
          · rw [if_pos (by omega)]
          · rw [if_neg (by omega), if_neg (by omega)] at h2
            rw [if_neg (by omega), if_neg (by omega)]
            exact ih h1 h2
          · rw [if_neg (by omega), if_pos hyz] at h2; exact absurd h2 (by simp)
        · rw [if_neg (by omega), if_pos hxy] at h1; exact absurd h1 (by simp)

theorem mem_insertSorted {x y : Str} {l : List Str} :
    y ∈ insertSorted x l ↔ y = x ∨ y ∈ l := by
  induction l with
  | nil => simp [insertSorted]
  | cons z zs ih =>
    by_cases h : strLe x z = true
    · simp only [insertSorted, h, if_pos]
      simp [List.mem_cons]
    · simp only [insertSorted, h, if_neg, Bool.not_eq_true]
      simp [List.mem_cons, ih]
      tauto

theorem pairwise_insertSorted {x : Str} {l : List Str}
    (hl : l.Pairwise (fun a b => strLe a b = true)) :
    (insertSorted x l).Pairwise (fun a b => strLe a b = true) := by
  induction l with
  | nil => simp [insertSorted]
  | cons z zs ih =>
    rcases List.pairwise_cons.mp hl with ⟨hz, hzs⟩
    by_cases h : strLe x z = true
    · rw [insertSorted, if_pos h]
      refine List.pairwise_cons.mpr ⟨?_, hl⟩
      intro b hb
      rcases List.mem_cons.mp hb with rfl | hb
      · exact h
      · exact strLe_trans h (hz b hb)
    · rw [insertSorted, if_neg h]
      refine List.pairwise_cons.mpr ⟨?_, ih hzs⟩
      intro b hb
      rcases mem_insertSorted.mp hb with hbx | hb
      · rw [hbx]; exact (strLe_total x z).resolve_left h
      · exact hz b hb

theorem sortStrs_pairwise (l : List Str) :
    (sortStrs l).Pairwise (fun a b => strLe a b = true) := by
  induction l with
  | nil => simp [sortStrs]
  | cons x xs ih => exact pairwise_insertSorted ih

theorem mem_sortStrs {y : Str} {l : List Str} : y ∈ sortStrs l ↔ y ∈ l := by
  induction l with
  | nil => simp [sortStrs]
  | cons x xs ih =>
    show y ∈ insertSorted x (sortStrs xs) ↔ _
    rw [mem_insertSorted, ih]
    simp [List.mem_cons]

/-! ## Dictionary lemmas for the frequency aggregator -/

theorem dictGet_dictSet (d : List (Str × Nat)) (k k' : Str) (v : Nat) :
    dictGet (dictSet d k v) k' = if k = k' then v else dictGet d k' := by
  induction d with
  | nil => simp [dictSet, dictGet]
  | cons kv rest ih =>
    obtain ⟨k0, v0⟩ := kv
    by_cases h0 : k0 = k
    · subst h0
      by_cases h1 : k0 = k' <;> simp [dictSet, dictGet, h1]
    · by_cases h1 : k0 = k'
      · subst h1
        have : ¬ k = k0 := fun h => h0 h.symm
        simp [dictSet, dictGet, h0, this]
      · simp [dictSet, dictGet, h0, h1, ih]

theorem dictGet_bumpKeywords (ks : List Str) (d : List (Str × Nat)) (k : Str) :
    dictGet (bumpKeywords d ks) k = dictGet d k + ks.count k := by
  induction ks generalizing d with
  | nil => simp [bumpKeywords]
  | cons k0 ks ih =>
    show dictGet (bumpKeywords (dictSet d k0 (dictGet d k0 + 1)) ks) k = _
    rw [ih, dictGet_dictSet]
    by_cases h : k0 = k
    · subst h; simp [List.count_cons]; omega
    · simp [List.count_cons, h]

theorem dictGet_aggregate (pubs : List Pub) (k : Str) :
    dictGet (aggregate_keyword_freq pubs) k =
      (pubs.map (fun p => p.keywords.count k)).sum := by
  suffices h : ∀ d, dictGet (pubs.foldl (fun d p => bumpKeywords d p.keywords) d) k =
      dictGet d k + (pubs.map (fun p => p.keywords.count k)).sum by
    simpa [aggregate_keyword_freq, dictGet] using h []
  induction pubs with
  | nil => intro d; simp
  | cons p ps ih =>
    intro d
    simp only [List.foldl_cons, List.map_cons, List.sum_cons]
    rw [ih, dictGet_bumpKeywords]
    omega

/-! ## Leftmost-match lemmas for the title regex -/

theorem titleCaptureFrom_nil : titleCaptureFrom ([] : Str) = none := by decide

theorem searchTitle_eq_none_iff (e : Str) :
    searchTitle e = none ↔ ∀ i, titleCaptureFrom (e.drop i) = none := by
  induction e with
  | nil =>
    constructor
    · intro _ i
      rw [List.drop_nil]
      exact titleCaptureFrom_nil
    · intro _; rfl
  | cons c rest ih =>
    cases hc : titleCaptureFrom (c :: rest) with
    | some cap =>
      constructor
      · intro h
        rw [searchTitle, hc] at h
        cases h
      · intro h
        have h0 := h 0
        rw [List.drop_zero, hc] at h0
        cases h0
    | none =>
      rw [searchTitle, hc]
      rw [ih]
      constructor
      · intro h i
        cases i with
        | zero => rw [List.drop_zero]; exact hc
        | succ i => rw [List.drop_succ_cons]; exact h i
      · intro h i
        have := h (i + 1)
        rwa [List.drop_succ_cons] at this

theorem searchTitle_eq_some (e : Str) (cap : Str) (h : searchTitle e = some cap) :
    ∃ i, titleCaptureFrom (e.drop i) = some cap ∧
      ∀ j, j < i → titleCaptureFrom (e.drop j) = none := by
  induction e with
  | nil => cases h
  | cons c rest ih =>
    cases hc : titleCaptureFrom (c :: rest) with
    | some cap0 =>
      simp only [searchTitle, hc] at h
      refine ⟨0, ?_, fun j hj => absurd hj (Nat.not_lt_zero j)⟩
      rw [List.drop_zero, hc, h]
    | none =>
      simp only [searchTitle, hc] at h
      obtain ⟨i, h1, h2⟩ := ih h
      refine ⟨i + 1, ?_, ?_⟩
      · rwa [List.drop_succ_cons]
      · intro j hj
        cases j with
        | zero => rw [List.drop_zero]; exact hc
        | succ j =>
          rw [List.drop_succ_cons]
          exact h2 j (by omega)

/-! ## Phrase-count and token-suppression lemmas -/

theorem count_map_eq_length_filter (f : Str → Str) (l : List Str) (c : Str) :
    (l.map f).count c = (l.filter (fun p => decide (f p = c))).length := by
  induction l with
  | nil => rfl
  | cons x xs ih =>
    by_cases h : f x = c
    · simp [List.count_cons, List.filter_cons, h, ih]
    · simp [List.count_cons, List.filter_cons, h, ih]

theorem phrase_scan_count_le (lt : Str) (c : Str) :
    (phrase_scan lt).count c ≤
      (PHRASES.filter (fun p => decide (phraseNorm p = c))).length := by
  rw [phrase_scan, count_map_eq_length_filter]
  have hsub : List.Sublist
      ((PHRASES.filter (fun p => isSubstrOf p lt)).filter
        (fun p => decide (phraseNorm p = c)))
      (PHRASES.filter (fun p => decide (phraseNorm p = c))) :=
    List.Sublist.filter _ (List.filter_sublist PHRASES)
  exact hsub.length_le

theorem tokenize_remainder_no_overlap (t : Str) (used : List Str) (k : Str)
    (hk : k ∈ tokenize_remainder t used) (ph : Str) (hph : ph ∈ used) :
    strLower k ≠ strLower ph := by
  rw [tokenize_remainder, mem_sortStrs, List.mem_dedup, List.mem_filterMap] at hk
  obtain ⟨w, _, hw⟩ := hk
  simp only [tokenGuard] at hw
  split_ifs at hw with h1 h2 h3
  try cases hw
  intro heq
  exact h3 (by rw [heq]; exact List.mem_map_of_mem strLower hph)

/-! ## Segmenter step lemmas -/

theorem joinNl_singleton (l : Str) : joinNl [l] = l := by
  simp [joinNl, List.intercalate]

theorem keyword_in_freq (pubs : List Pub) (q : Pub) (hq : q ∈ pubs) (k : Str)
    (hk : k ∈ q.keywords) : 1 ≤ dictGet (aggregate_keyword_freq pubs) k := by
  rw [dictGet_aggregate]
  have h1 : 0 < q.keywords.count k := List.count_pos_iff.mpr hk
  have h2 : q.keywords.count k ∈ pubs.map (fun p => p.keywords.count k) :=
    List.mem_map_of_mem _ hq
  exact le_trans h1 (List.single_le_sum (fun x _ => Nat.zero_le x) _ h2)

/-! ## Claims -/

/-- Claim C4 (corrected).  The original claim says a brace-less entry is
never closed by the depth tracking and is flushed only by the next
record-start line or end-of-input.  In the code the depth check fires
whenever the running depth is `≤ 0`, which is the state at the start of
input and after any balanced prefix, so a brace-less entry is closed by
the depth condition immediately after its record-start line; only when an
earlier entry has left the running depth strictly positive does the
claimed flush-only-at-record-start-or-EOF behavior hold. -/
theorem bracefree_entry_closing (st : SegState) (l : Str)
    (hat : startsRecord l = true) (hbr : braceDelta l = 0) :
    (st.depth ≤ 0 →
      segLine st l = ⟨[], st.depth, false, st.ents ++ flushPending st ++ [l]⟩) ∧
    (0 < st.depth →
      segLine st l = ⟨[l], st.depth, true, st.ents ++ flushPending st⟩) := by
  constructor
  · intro hd
    simp [segLine, hat, hbr, flushPending, joinNl_singleton, hd]
  · intro hd
    have hnot : ¬ (st.depth + braceDelta l ≤ 0) := by rw [hbr]; omega
    simp [segLine, hat, hbr, flushPending, hnot]
    omega

/-- Claim C4 witness: at the initial state (depth 0), a record-start line
with no braces is closed by the depth condition at once. -/
theorem bracefree_entry_closing_witness :
    segLine ⟨[], 0, false, []⟩ (strChars "@x") =
      ⟨[], 0, false, [strChars "@x"]⟩ :=
  (bracefree_entry_closing ⟨[], 0, false, []⟩ (strChars "@x")
    (by decide) (by decide)).1 (by decide)

/-- Claim C4 counterexample: on the input "@a\nrest" the brace-less entry
is closed by the depth condition right after its first line and the
following line is dropped; flushing only at the next record start or
end-of-input would instead have produced the single entry "@a\nrest". -/
theorem bracefree_entry_counterexample :
    iter_bib_entries (strChars "@a\nrest") = [strChars "@a"] ∧
    iter_bib_entries (strChars "@a\nrest") ≠ [strChars "@a\nrest"] := by
  exact ⟨by decide, by decide⟩

/-- Claim C10 (corrected).  True part: the depth counter is never reset —
processing a line only adds that line's brace delta (and only when the
line is consumed), so after an entry leaves the depth strictly positive a
brace-less line can never trigger the depth condition.  False part: a
later entry whose lines carry excess closing braces can bring the running
depth back to `≤ 0` and is then closed by the depth condition, so
"flushed only by the next record-start line or end-of-input" does not
hold for every subsequent entry. -/
theorem depth_never_reset (st : SegState) (l : Str) :
    ((segLine st l).depth =
      st.depth + (if startsRecord l || st.inside then braceDelta l else 0)) ∧
    (st.inside = true → startsRecord l = false → braceDelta l = 0 → 0 < st.depth →
      segLine st l = ⟨st.current ++ [l], st.depth, true, st.ents⟩) := by
  constructor
  · by_cases h1 : startsRecord l <;> by_cases h2 : st.inside <;>
      simp [segLine, h1, h2] <;> split_ifs <;> simp
  · intro hin hat hbr hd
    have hnot : ¬ (st.depth + braceDelta l ≤ 0) := by rw [hbr]; omega
    simp [segLine, hat, hin, hbr, hnot]
    omega

/-- Claim C10 witness: while inside an entry with positive running depth,
a brace-less non-record line is only accumulated, never closes. -/
theorem depth_never_reset_witness :
    segLine ⟨[strChars "@b"], 1, true, []⟩ (strChars "zz") =
      ⟨[strChars "@b", strChars "zz"], 1, true, []⟩ :=
  (depth_never_reset ⟨[strChars "@b"], 1, true, []⟩ (strChars "zz")).2
    rfl (by decide) (by decide) (by decide)

/-- Claim C10 counterexample: after "@a{" leaves the depth at 1, the
entry started by "@b" is closed by the depth condition at the excess "}"
line — not by the next record start or end-of-input — so the line "xtra"
is dropped; the claimed behavior would have produced the middle entry
"@b\n}\nxtra" instead of "@b\n}". -/
theorem depth_reset_counterexample :
    iter_bib_entries (strChars "@a\x7b\n@b\n\x7d\nxtra\n@c") =
      [strChars "@a\x7b", strChars "@b\n\x7d", strChars "@c"] ∧
    iter_bib_entries (strChars "@a\x7b\n@b\n\x7d\nxtra\n@c") ≠
      [strChars "@a\x7b", strChars "@b\n\x7d\nxtra", strChars "@c"] := by
  exact ⟨by decide, by decide⟩

/-- Claim C5 (confirmed).  `extract_title` is absent exactly when the
title pattern matches nowhere in the entry; when it succeeds, its result
is the whitespace-normalised (newlines to spaces, runs of whitespace
collapsed, ends trimmed) capture of the leftmost match of the pattern. -/
theorem extract_title_spec (e : Str) :
    ((extract_title e = none) ↔ ¬ hasTitleField e) ∧
    (∀ s, extract_title e = some s →
      ∃ i c, titleCaptureFrom (e.drop i) = some c ∧
        (∀ j, j < i → titleCaptureFrom (e.drop j) = none) ∧
        s = wsNormalize c) := by
  constructor
  · rw [show extract_title e = (searchTitle e).map wsNormalize from rfl]
    rw [Option.map_eq_none', searchTitle_eq_none_iff]
    simp only [hasTitleField, not_exists, Option.not_isSome_iff_eq_none]
  · intro s hs
    rw [show extract_title e = (searchTitle e).map wsNormalize from rfl] at hs
    rcases Option.map_eq_some'.mp hs with ⟨c, hc, hfc⟩
    obtain ⟨i, h1, h2⟩ := searchTitle_eq_some e c hc
    exact ⟨i, c, h1, h2, hfc.symm⟩

/-- Claim C5 witness: an entry with no title field yields an absent
title, via the theorem's iff at a concrete entry. -/
theorem extract_title_spec_witness :
    ¬ hasTitleField (strChars "@misc\x7bk1, year=2020\x7d") :=
  (extract_title_spec (strChars "@misc\x7bk1, year=2020\x7d")).1.mp (by decide)

/-- Claim C1 (corrected).  The original claim says each canonical phrase
keyword appears at most once.  In the code two distinct phrase-list
entries (a singular and a plural variant) can normalise to the same
canonical form and then both contribute, so the right bound is: a
canonical phrase keyword appears at most as many times as there are
phrase-list entries normalising to it.  The non-overlap half of the claim
is as stated: no token keyword's lower-cased form equals a collected
phrase keyword's lower-cased form. -/
theorem keyword_dedup_invariant (t : Str) :
    (∀ c, (phrase_scan (strip_accents (strLower t))).count c ≤
      (PHRASES.filter (fun p => decide (phraseNorm p = c))).length) ∧
    (∀ k, k ∈ tokenize_remainder t (phrase_scan (strip_accents (strLower t))) →
      ∀ ph, ph ∈ phrase_scan (strip_accents (strLower t)) →
        strLower k ≠ strLower ph) := by
  constructor
  · intro c
    exact phrase_scan_count_le (strip_accents (strLower t)) c
  · intro k hk ph hph
    exact tokenize_remainder_no_overlap t _ k hk ph hph

/-- Claim C1 witness: for the title "Ontology Alignment Systems" the
token keyword "Alignment" does not collide with the phrase keyword
"Ontology". -/
theorem keyword_dedup_invariant_witness :
    strLower (strChars "Alignment") ≠ strLower (strChars "Ontology") :=
  (keyword_dedup_invariant (strChars "Ontology Alignment Systems")).2
    (strChars "Alignment") (by decide) (strChars "Ontology") (by decide)

/-- Claim C1 counterexample: the title "Mappings" matches both the
"mapping" and the "mappings" phrase entries, which normalise to the same
canonical form, so the publication's keyword list holds "Mapping" twice —
the claimed at-most-once property fails. -/
theorem keyword_dedup_counterexample :
    build_publication_keywords [some (strChars "Mappings")] =
      [⟨strChars "Mappings", [strChars "Mapping", strChars "Mapping"]⟩] ∧
    ¬ ([strChars "Mapping", strChars "Mapping"] : List Str).count
        (strChars "Mapping") ≤ 1 := by
  exact ⟨by decide, by decide⟩

/-- Claim C2 (corrected).  The aggregator's value for a keyword is the
total number of raw occurrences of the keyword across all publications'
keyword lists; this equals the number of publications containing the
keyword only when every list holds it at most once, which the pipeline
does not guarantee. -/
theorem freq_counts_occurrences (pubs : List Pub) (k : Str) :
    dictGet (aggregate_keyword_freq pubs) k =
      (pubs.map (fun p => p.keywords.count k)).sum :=
  dictGet_aggregate pubs k

/-- Claim C2 counterexample: a single publication whose keyword list
holds "Mapping" twice gets frequency 2, while the number of publications
containing "Mapping" is 1. -/
theorem freq_counts_occurrences_counterexample :
    dictGet (aggregate_keyword_freq
        (build_publication_keywords [some (strChars "Mappings")]))
      (strChars "Mapping") = 2 ∧
    ((build_publication_keywords [some (strChars "Mappings")]).filter
        (fun p => decide (strChars "Mapping" ∈ p.keywords))).length = 1 ∧
    (2 : Nat) ≠ 1 := by
  exact ⟨by decide, by decide, by decide⟩

/-- Claim C3 (corrected).  On the scenario input the pipeline produces
exactly one publication with the expected title, but its keyword list is
["Knowledge Graphs", "Knowledge Graphs", "Ontology", "Mapping"]: the
phrase entries "knowledge graph" and "knowledge graphs" both match and
both contribute the canonical "Knowledge Graphs", in phrase-table order,
and there are no stray token keywords. -/
theorem scenario_knowledge_graphs :
    runPipeline bibInput3 1 (strChars "Marcos.bib") =
      ⟨[⟨title3, keywords3⟩], strChars "Marcos.bib", 1⟩ := by decide

/-- Claim C3 counterexample: the keyword list does not begin
["Knowledge Graphs", "Ontology", "Mapping"] — its first three elements
are ["Knowledge Graphs", "Knowledge Graphs", "Ontology"]. -/
theorem scenario_knowledge_graphs_counterexample :
    ((runPipeline bibInput3 1 (strChars "Marcos.bib")).publications.map
        Pub.keywords ≠
      [[strChars "Knowledge Graphs", strChars "Ontology", strChars "Mapping"]]) ∧
    keywords3.take 3 =
      [strChars "Knowledge Graphs", strChars "Knowledge Graphs",
       strChars "Ontology"] := by
  exact ⟨by decide, by decide⟩

/-- Claim C6 (confirmed).  The emitted document's totalPublications field
equals the length of its publications list, and every keyword in any
emitted publication's keyword list is counted with frequency at least 1
in the aggregated frequency map. -/
theorem output_roundtrip (text : Str) (minFreq : Int) (bibPath : Str) :
    (runPipeline text minFreq bibPath).totalPublications =
      (runPipeline text minFreq bibPath).publications.length ∧
    (∀ p, p ∈ (runPipeline text minFreq bibPath).publications →
      ∀ k, k ∈ p.keywords → 1 ≤ dictGet (pipelineFreq text) k) := by
  constructor
  · rfl
  · intro p hp k hk
    simp only [runPipeline] at hp
    rw [pipelineFreq]
    by_cases hm : 1 < minFreq
    · rw [applyMinFreq, if_pos hm] at hp
      rcases List.mem_map.mp hp with ⟨q, hq, hpq⟩
      rw [← hpq] at hk
      have hk' : k ∈ q.keywords := (List.mem_filter.mp hk).1
      exact keyword_in_freq _ q hq k hk'
    · rw [applyMinFreq, if_neg hm] at hp
      exact keyword_in_freq _ p hp k hk

/-- Claim C6 witness: on the scenario input, the keyword "Ontology" of
the emitted publication has frequency at least 1. -/
theorem output_roundtrip_witness :
    1 ≤ dictGet (pipelineFreq bibInput3) (strChars "Ontology") :=
  (output_roundtrip bibInput3 1 (strChars "Marcos.bib")).2
    ⟨title3, keywords3⟩ (by decide) (strChars "Ontology") (by decide)

/-- Claim C7 (confirmed).  For thresholds T1 < T2 the keyword list
retained for each publication under T2 is a subset of the one retained
under T1 (positionally, publication by publication). -/
theorem threshold_monotone (text : Str) (bibPath : Str) (t1 t2 : Int)
    (h12 : t1 < t2) (i : Nat) (p1 p2 : Pub)
    (h1 : (runPipeline text t1 bibPath).publications[i]? = some p1)
    (h2 : (runPipeline text t2 bibPath).publications[i]? = some p2) :
    ∀ k, k ∈ p2.keywords → k ∈ p1.keywords := by
  intro k hk
  simp only [runPipeline] at h1 h2
  by_cases ht2 : 1 < t2
  · rw [applyMinFreq, if_pos ht2, List.getElem?_map] at h2
    cases hq : (pipelinePubs text)[i]? with
    | none => rw [hq] at h2; cases h2
    | some q =>
      rw [hq] at h2
      simp only [Option.map_some'] at h2
      injection h2 with h2
      rw [← h2] at hk
      have hk' := List.mem_filter.mp hk
      by_cases ht1 : 1 < t1
      · rw [applyMinFreq, if_pos ht1, List.getElem?_map, hq] at h1
        simp only [Option.map_some'] at h1
        injection h1 with h1
        rw [← h1]
        refine List.mem_filter.mpr ⟨hk'.1, ?_⟩
        have hv := of_decide_eq_true hk'.2
        exact decide_eq_true (by omega)
      · rw [applyMinFreq, if_neg ht1, hq] at h1
        injection h1 with h1
        rw [← h1]
        exact hk'.1
  · have ht1 : ¬ 1 < t1 := by omega
    rw [applyMinFreq, if_neg ht2] at h2
    rw [applyMinFreq, if_neg ht1] at h1
    rw [h1] at h2
    injection h2 with h2
    rw [← h2] at hk
    exact hk

/-- Claim C7 witness: on the scenario input with thresholds 1 < 2, the
keyword "Knowledge Graphs" retained under threshold 2 is also present in
the list retained under threshold 1. -/
theorem threshold_monotone_witness :
    strChars "Knowledge Graphs" ∈ (Pub.mk title3 keywords3).keywords :=
  threshold_monotone bibInput3 (strChars "Marcos.bib") 1 2 (by decide) 0
    ⟨title3, keywords3⟩
    ⟨title3, [strChars "Knowledge Graphs", strChars "Knowledge Graphs"]⟩
    (by decide) (by decide) (strChars "Knowledge Graphs") (by decide)

/-- Claim C8 (confirmed).  The pipeline is a pure function of the input
text and configuration, so two runs on identical input produce identical
output documents; the residual token keywords of every publication are
sorted lexicographically (and phrase keywords are taken in the fixed
phrase-list order by construction of `phrase_scan`). -/
theorem pipeline_deterministic (text : Str) (minFreq : Int) (bibPath : Str) :
    runPipeline text minFreq bibPath = runPipeline text minFreq bibPath ∧
    (∀ (t : Str) (used : List Str),
      (tokenize_remainder t used).Pairwise (fun a b => strLe a b = true)) :=
  ⟨rfl, fun _ _ => sortStrs_pairwise _⟩

/-- Claim C9 (confirmed).  An entry whose title cannot be extracted
contributes no publication: the publication list (and hence the
totalPublications count) built with that entry's absent title is the same
as the one built without it, and no error is raised (every function of
the embedding is total). -/
theorem missing_title_skipped (e : Str) (ts1 ts2 : List (Option Str))
    (h : extract_title e = none) :
    build_publication_keywords (ts1 ++ extract_title e :: ts2) =
      build_publication_keywords (ts1 ++ ts2) := by
  rw [h]
  simp [build_publication_keywords, List.filterMap_append, List.filterMap_cons,
    pubOfTitle]

/-- Claim C9 witness: the entry "@misc{k2}" has no extractable title and
contributes nothing next to the scenario title. -/
theorem missing_title_skipped_witness :
    build_publication_keywords
        ([some title3] ++ extract_title (strChars "@misc\x7bk2\x7d") :: []) =
      build_publication_keywords ([some title3] ++ []) :=
  missing_title_skipped (strChars "@misc\x7bk2\x7d") [some title3] [] (by decide)
